import Mathlib

/-
Verification development for the structure-learning operator engine of
PyBNesian (src/learning/operators/operators.hpp).  The C++ code is shallowly
embedded: machine doubles are idealized as exact integers (the operator
engine only adds, subtracts and compares score values, so any linear
ordered commutative ring is faithful to the real-arithmetic reading of the
spec, and integers keep every concrete evaluation kernel-computable), the
sentinel value std::numeric_limits<double>::lowest() is a fixed very
negative integer of the same magnitude,
Eigen matrices are functions from index pairs, and the uninitialized memory
Eigen allocates is an explicit parameter of each constructor.
-/

set_option autoImplicit false
set_option maxRecDepth 8000

/-- Modelled from the spec: the factor type attached to a node of a
semiparametric network is a binary tag with an involutive opposite
(spec section 4.3 and glossary).  The concrete C++ FactorType class is not
part of the sources under verification; only its binary flip behaviour is
relied upon by operators.hpp. -/
inductive FactorType where
  | typeA : FactorType
  | typeB : FactorType
deriving DecidableEq, Repr

/-- Modelled from the spec: the binary type flip of a factor type. -/
def FactorType.opposite : FactorType → FactorType
  | .typeA => .typeB
  | .typeB => .typeA

/-- Numeric value of the factor type enumeration, as used by the implicit
conversion to an integer inside HashOperator. -/
def FactorType.val : FactorType → Nat
  | .typeA => 0
  | .typeB => 1

/-- The OperatorType enumeration of operators.hpp (values ADD_ARC = 0,
REMOVE_ARC = 1, FLIP_ARC = 2, CHANGE_NODE_TYPE = 3). -/
inductive OperatorType where
  | ADD_ARC : OperatorType
  | REMOVE_ARC : OperatorType
  | FLIP_ARC : OperatorType
  | CHANGE_NODE_TYPE : OperatorType
deriving DecidableEq, Repr

/-- Numeric value of the OperatorType enumeration. -/
def OperatorType.val : OperatorType → Nat
  | .ADD_ARC => 0
  | .REMOVE_ARC => 1
  | .FLIP_ARC => 2
  | .CHANGE_NODE_TYPE => 3

/-- The Operator hierarchy of operators.hpp as a tagged variant: AddArc,
RemoveArc and FlipArc carry (source, target, delta), ChangeNodeType carries
(node, new node type, delta).  Score deltas (C++ doubles) are idealized as
integers. -/
inductive Op where
  | addArc (source target : String) (delta : ℤ) : Op
  | removeArc (source target : String) (delta : ℤ) : Op
  | flipArc (source target : String) (delta : ℤ) : Op
  | changeNodeType (node : String) (new_node_type : FactorType) (delta : ℤ) : Op
deriving DecidableEq, Repr

/-- Accessor matching Operator::type() of operators.hpp. -/
def Op.type : Op → OperatorType
  | .addArc _ _ _ => .ADD_ARC
  | .removeArc _ _ _ => .REMOVE_ARC
  | .flipArc _ _ _ => .FLIP_ARC
  | .changeNodeType _ _ _ => .CHANGE_NODE_TYPE

/-- Accessor matching Operator::delta() of operators.hpp. -/
def Op.delta : Op → ℤ
  | .addArc _ _ d => d
  | .removeArc _ _ d => d
  | .flipArc _ _ d => d
  | .changeNodeType _ _ d => d

/-- Replaces the delta of an operator, leaving every identity field alone.
Used to state that the tabu identity ignores the delta. -/
def Op.withDelta : Op → ℤ → Op
  | .addArc s t _, d => .addArc s t d
  | .removeArc s t _, d => .removeArc s t d
  | .flipArc s t _, d => .flipArc s t d
  | .changeNodeType n ty _, d => .changeNodeType n ty d

/-- Operator::opposite() of operators.hpp (lines 112, 130, 151, 178):
AddArc becomes RemoveArc with negated delta, RemoveArc becomes AddArc with
negated delta, FlipArc swaps endpoints and negates delta, ChangeNodeType
flips the factor type and negates delta. -/
def Op.opposite : Op → Op
  | .addArc s t d => .removeArc s t (-d)
  | .removeArc s t d => .addArc s t (-d)
  | .flipArc s t d => .flipArc t s (-d)
  | .changeNodeType n ty d => .changeNodeType n ty.opposite (-d)

/-- OperatorPtrEqual of operators.hpp (lines 217 to 248): two operators are
equal when their kinds match and the identity fields of the variant agree;
the delta takes no part. -/
def opEqual : Op → Op → Bool
  | .addArc s t _, .addArc s2 t2 _ => s == s2 && t == t2
  | .removeArc s t _, .removeArc s2 t2 _ => s == s2 && t == t2
  | .flipArc s t _, .flipArc s2 t2 _ => s == s2 && t == t2
  | .changeNodeType n ty _, .changeNodeType n2 ty2 _ => n == n2 && ty == ty2
  | _, _ => false

/-- Declarative form of the operator identity exactly as the spec words it
(spec section 3): kinds match, and the (source, target) pair respectively
the (node, new type) pair agree.  Used to compare opEqual against the spec. -/
def tabuIdentity (a b : Op) : Prop :=
  a.type = b.type ∧
  (match a, b with
   | .addArc s t _, .addArc s2 t2 _ => s = s2 ∧ t = t2
   | .removeArc s t _, .removeArc s2 t2 _ => s = s2 ∧ t = t2
   | .flipArc s t _, .flipArc s2 t2 _ => s = s2 ∧ t = t2
   | .changeNodeType n ty _, .changeNodeType n2 ty2 _ => n = n2 ∧ ty = ty2
   | _, _ => False)

/-- HashOperator of operators.hpp (lines 192 to 215): arc operators hash to
(stringHash source shifted left by kind value plus one) xor stringHash
target; ChangeNodeType hashes to stringHash node times the numeric factor
type value.  The std::hash of a string is an arbitrary function parameter;
the size_t width is 64 bits. -/
def hashOperator (stringHash : String → Nat) : Op → Nat
  | .addArc s t _ =>
      ((stringHash s <<< (OperatorType.ADD_ARC.val + 1)) ^^^ stringHash t) % 2 ^ 64
  | .removeArc s t _ =>
      ((stringHash s <<< (OperatorType.REMOVE_ARC.val + 1)) ^^^ stringHash t) % 2 ^ 64
  | .flipArc s t _ =>
      ((stringHash s <<< (OperatorType.FLIP_ARC.val + 1)) ^^^ stringHash t) % 2 ^ 64
  | .changeNodeType n ty _ =>
      (stringHash n * ty.val) % 2 ^ 64

/-- OperatorTabuSet of operators.hpp, reduced to its observable content: the
collection of operators inserted so far.  contains tests membership with the
OperatorPtrEqual identity. -/
def tabuContains (tabu : List Op) (op : Op) : Bool :=
  tabu.any (fun t => opEqual t op)

/-- The sentinel std::numeric_limits<double>::lowest() used by operators.hpp
for knocked-out delta cells and as the initial best delta of the pool scan,
idealized as a fixed very negative integer. -/
def lowest : ℤ := -(10 ^ 308)

/-- The graph and model capability set consumed by the operator engine
(spec section 6).  The edge relation is the authoritative graph; parent
sets and parent counts are derived from it, which models the coherence the
real BayesianNetwork guarantees.  Legality oracles (can_add_edge,
can_flip_edge), node names, the name-to-index map and node types are
abstract fields. -/
structure Model where
  num_nodes : ℕ
  edge : ℕ → ℕ → Bool
  can_add_edge : ℕ → ℕ → Bool
  can_flip_edge : ℕ → ℕ → Bool
  name : ℕ → String
  index : String → ℕ
  node_type : ℕ → FactorType

/-- Model::has_edge. -/
def Model.has_edge (m : Model) (s t : ℕ) : Bool := m.edge s t

/-- Model::parent_indices, as a finite set (score functions are insensitive
to the order of the parent vector). -/
def Model.parents (m : Model) (t : ℕ) : Finset ℕ :=
  (Finset.range m.num_nodes).filter (fun s => m.edge s t = true)

/-- Model::num_parents, derived from the edge relation: the size of the
parent set. -/
def Model.num_parents (m : Model) (t : ℕ) : ℕ :=
  (m.parents t).card

/-- Model::add_edge by node names, as called from Operator::apply. -/
def Model.add_edge (m : Model) (s t : String) : Model :=
  { m with edge := fun a b =>
      if a = m.index s ∧ b = m.index t then true else m.edge a b }

/-- Model::remove_edge by node names, as called from Operator::apply. -/
def Model.remove_edge (m : Model) (s t : String) : Model :=
  { m with edge := fun a b =>
      if a = m.index s ∧ b = m.index t then false else m.edge a b }

/-- Operator::apply of operators.hpp: AddArc adds source to target,
RemoveArc removes it, FlipArc removes source to target then adds target to
source, ChangeNodeType sets the node type. -/
def Op.apply (op : Op) (m : Model) : Model :=
  match op with
  | .addArc s t _ => m.add_edge s t
  | .removeArc s t _ => m.remove_edge s t
  | .flipArc s t _ => (m.remove_edge s t).add_edge t s
  | .changeNodeType n ty _ =>
      { m with node_type := fun i => if i = m.index n then ty else m.node_type i }

/-- Delta matrices of ArcOperatorSet: row index is the source, column index
the destination, entries are idealized doubles. -/
def Matq : Type := ℕ → ℕ → ℤ

/-- Reads the delta matrix through the flat column-major pointer
delta.data(), exactly as the sort comparators of operators.hpp do:
element idx corresponds to row idx mod n and column idx div n. -/
def deltaLin (n : ℕ) (δ : Matq) (idx : ℕ) : ℤ := δ (idx % n) (idx / n)

/-- The comparison predicate of every find_max in-place sort in
operators.hpp (lines 664, 701, 892): index i1 precedes i2 when the delta at
i1 is at least the delta at i2. -/
def sortComp (dlin : ℕ → ℤ) (i1 i2 : ℕ) : Bool :=
  decide (dlin i2 ≤ dlin i1)

/-- Inserts an index into a list sorted by descending delta.  std::sort with
the non-strict comparator of operators.hpp has unspecified element order (the
comparator breaks the strict-weak-ordering precondition), so the embedding
fixes one descending order; no verified claim depends on the tie order. -/
def insertDesc (dlin : ℕ → ℤ) (x : ℕ) : List ℕ → List ℕ
  | [] => [x]
  | y :: ys => if sortComp dlin x y then x :: y :: ys else y :: insertDesc dlin x ys

/-- Sorts a list of indices by descending delta (the in-place std::sort of
find_max). -/
def sortDesc (dlin : ℕ → ℤ) (l : List ℕ) : List ℕ :=
  l.foldr (insertDesc dlin) []

/-- Membership is preserved by insertDesc. -/
theorem mem_insertDesc (dlin : ℕ → ℤ) (x a : ℕ) (l : List ℕ) :
    a ∈ insertDesc dlin x l ↔ a = x ∨ a ∈ l := by
  induction l with
  | nil => simp [insertDesc]
  | cons y ys ih =>
      by_cases h : sortComp dlin x y = true
      · simp [insertDesc, h]
      · simp only [insertDesc, h]
        simp [List.mem_cons, ih]
        tauto

/-- Membership is preserved by sortDesc. -/
theorem mem_sortDesc (dlin : ℕ → ℤ) (a : ℕ) (l : List ℕ) :
    a ∈ sortDesc dlin l ↔ a ∈ l := by
  induction l with
  | nil => simp [sortDesc]
  | cons y ys ih =>
      simp only [sortDesc, List.foldr_cons] at *
      rw [mem_insertDesc, ih]
      simp [List.mem_cons]

/-- Body of one iteration of the candidate scan of
ArcOperatorSet::find_max_indegree (operators.hpp lines 668 to 689): decode
the linear index into (source, dest); an existing arc source to dest yields a
RemoveArc; otherwise an existing reverse arc that may legally flip yields a
FlipArc, subject to the in-degree cap when the limited flag is set; otherwise
a legal addition yields an AddArc under the same cap.  A none result is the
continue path of the loop. -/
def candAt (m : Model) (δ : Matq) (limited : Bool) (max_indegree : ℕ) (idx : ℕ) :
    Option Op :=
  let source := idx % m.num_nodes
  let dest := idx / m.num_nodes
  if m.has_edge source dest then
    some (.removeArc (m.name source) (m.name dest) (δ source dest))
  else if m.has_edge dest source && m.can_flip_edge dest source then
    if limited && decide (max_indegree ≤ m.num_parents dest) then none
    else some (.flipArc (m.name dest) (m.name source) (δ dest source))
  else if m.can_add_edge source dest then
    if limited && decide (max_indegree ≤ m.num_parents dest) then none
    else some (.addArc (m.name source) (m.name dest) (δ source dest))
  else none

/-- The same candidate scan body with no in-degree restriction at all; used
to state that the unlimited instantiation applies no cap. -/
def candAtNoCap (m : Model) (δ : Matq) (idx : ℕ) : Option Op :=
  let source := idx % m.num_nodes
  let dest := idx / m.num_nodes
  if m.has_edge source dest then
    some (.removeArc (m.name source) (m.name dest) (δ source dest))
  else if m.has_edge dest source && m.can_flip_edge dest source then
    some (.flipArc (m.name dest) (m.name source) (δ dest source))
  else if m.can_add_edge source dest then
    some (.addArc (m.name source) (m.name dest) (δ source dest))
  else none

/-- ArcOperatorSet::find_max_indegree without a tabu set: sort the candidate
indices by descending delta and return the first constructible operator. -/
def arcFindMaxIndegree (m : Model) (δ : Matq) (limited : Bool)
    (max_indegree : ℕ) (sorted_idx : List ℕ) : Option Op :=
  (sortDesc (deltaLin m.num_nodes δ) sorted_idx).findSome?
    (candAt m δ limited max_indegree)

/-- ArcOperatorSet::find_max_indegree with a tabu set (operators.hpp lines
695 to 736): identical scan, but a candidate contained in the tabu set is
skipped instead of returned. -/
def arcFindMaxIndegreeTabu (m : Model) (δ : Matq) (limited : Bool)
    (max_indegree : ℕ) (sorted_idx : List ℕ) (tabu : List Op) : Option Op :=
  (sortDesc (deltaLin m.num_nodes δ) sorted_idx).findSome?
    (fun idx =>
      match candAt m δ limited max_indegree idx with
      | some op => if tabuContains tabu op then none else some op
      | none => none)

/-- ArcOperatorSet::find_max (operators.hpp lines 638 to 645): dispatch on
whether max_indegree is positive. -/
def arcFindMax (m : Model) (δ : Matq) (max_indegree : ℕ)
    (sorted_idx : List ℕ) : Option Op :=
  if 0 < max_indegree then arcFindMaxIndegree m δ true max_indegree sorted_idx
  else arcFindMaxIndegree m δ false max_indegree sorted_idx

/-- ArcOperatorSet::find_max with a tabu set (operators.hpp lines 647 to
654). -/
def arcFindMaxTabu (m : Model) (δ : Matq) (max_indegree : ℕ)
    (sorted_idx : List ℕ) (tabu : List Op) : Option Op :=
  if 0 < max_indegree then arcFindMaxIndegreeTabu m δ true max_indegree sorted_idx tabu
  else arcFindMaxIndegreeTabu m δ false max_indegree sorted_idx tabu

/-- ChangeNodeTypeSet::find_max with a tabu set (operators.hpp lines 887 to
906), transliterated with its inverted predicate: after sorting by
descending delta, the scan RETURNS the first candidate that IS contained in
the tabu set and skips the others. -/
def changeNodeTypeFindMaxTabu (m : Model) (δv : ℕ → ℤ) (sorted_idx : List ℕ)
    (tabu : List Op) : Option Op :=
  (sortDesc δv sorted_idx).findSome?
    (fun idx =>
      let op : Op := .changeNodeType (m.name idx) (m.node_type idx).opposite (δv idx)
      if tabuContains tabu op then some op else none)

/-- LocalScoreCache of operators.hpp (lines 340 to 392).  The constructor
only sizes the Eigen vector; Eigen does not write the freshly allocated
buffer, so the ambient memory contents are an explicit parameter. -/
structure LocalScoreCache where
  num_nodes : ℕ
  vec : ℕ → ℤ

/-- LocalScoreCache::LocalScoreCache (operators.hpp line 343): allocate a
buffer of num_nodes entries and write nothing to it; mem is the
uninitialized memory the allocation happens to contain. -/
def localScoreCacheNew (numNodes : ℕ) (mem : ℕ → ℤ) : LocalScoreCache :=
  ⟨numNodes, mem⟩

/-- LocalScoreCache::local_score. -/
def LocalScoreCache.local_score (c : LocalScoreCache) (i : ℕ) : ℤ := c.vec i

/-- LocalScoreCache::sum. -/
def LocalScoreCache.sum (c : LocalScoreCache) : ℤ :=
  ((List.range c.num_nodes).map c.vec).sum

/-- LocalScoreCache::cache_local_scores: write the current local score of
every node; currentScore i stands for score.local_score(model, i). -/
def LocalScoreCache.cache_local_scores (c : LocalScoreCache)
    (currentScore : ℕ → ℤ) : LocalScoreCache :=
  ⟨c.num_nodes, fun i => if i < c.num_nodes then currentScore i else c.vec i⟩

/-- Score gain of removing the existing arc s to t, as computed by
cache_scores: local score of t without parent s, minus the cached score of
t.  lscore stands for the explicit-parent-set overload of
Score::local_score with the model fixed. -/
def remF (m : Model) (lscore : ℕ → Finset ℕ → ℤ) (cache : ℕ → ℤ)
    (s t : ℕ) : ℤ :=
  lscore t ((m.parents t).erase s) - cache t

/-- Score gain of adding the arc s to t, as computed by cache_scores. -/
def addF (m : Model) (lscore : ℕ → Finset ℕ → ℤ) (cache : ℕ → ℤ)
    (s t : ℕ) : ℤ :=
  lscore t (insert s (m.parents t)) - cache t

/-- Score gain of flipping the existing arc s to t into t to s, as computed
by cache_scores: t loses parent s, s gains parent t. -/
def flipF (m : Model) (lscore : ℕ → Finset ℕ → ℤ) (cache : ℕ → ℤ)
    (s t : ℕ) : ℤ :=
  lscore t ((m.parents t).erase s) + lscore s (insert t (m.parents s))
    - cache t - cache s

/-- One iteration of the double loop of ArcOperatorSet::cache_scores
(operators.hpp lines 603 to 636) at (dest, source): when valid_op(source,
dest) holds, an existing arc source to dest writes the remove gain into cell
(source, dest); otherwise an existing reverse arc writes the flip gain into
cell (dest, source); otherwise the add gain goes into cell (source, dest).
The result pairs the written cell with the written value; none means the
iteration writes nothing.  The written value never reads the delta matrix. -/
def hitVal (m : Model) (lscore : ℕ → Finset ℕ → ℤ) (cache : ℕ → ℤ)
    (valid : ℕ → ℕ → Bool) (p : ℕ × ℕ) : Option ((ℕ × ℕ) × ℤ) :=
  let dest := p.1
  let source := p.2
  if valid source dest then
    if m.edge source dest then
      some ((source, dest), remF m lscore cache source dest)
    else if m.edge dest source then
      some ((dest, source), flipF m lscore cache dest source)
    else
      some ((source, dest), addF m lscore cache source dest)
  else none

/-- Value that the iteration p of cache_scores writes into the cell c, if
any. -/
def hitCell (m : Model) (lscore : ℕ → Finset ℕ → ℤ) (cache : ℕ → ℤ)
    (valid : ℕ → ℕ → Bool) (p : ℕ × ℕ) (c : ℕ × ℕ) : Option ℤ :=
  match hitVal m lscore cache valid p with
  | some (c2, v) => if c2 = c then some v else none
  | none => none

/-- Pointwise update of a delta matrix at one cell. -/
def updateCell (δ : Matq) (c : ℕ × ℕ) (v : ℤ) : Matq :=
  fun x y => if (x, y) = c then v else δ x y

/-- One iteration of cache_scores as a matrix transformer. -/
def cacheStep (m : Model) (lscore : ℕ → Finset ℕ → ℤ) (cache : ℕ → ℤ)
    (valid : ℕ → ℕ → Bool) (δ : Matq) (p : ℕ × ℕ) : Matq :=
  match hitVal m lscore cache valid p with
  | some (c, v) => updateCell δ c v
  | none => δ

/-- Iteration space of the double loop of cache_scores: dest is the outer
loop, source the inner loop, both ascending. -/
def pairList (n : ℕ) : List (ℕ × ℕ) :=
  (List.range n).flatMap (fun dest => (List.range n).map (fun source => (dest, source)))

/-- ArcOperatorSet::cache_scores (operators.hpp lines 603 to 636): run the
double loop over the initial matrix δ0 (the matrix contents left over from
construction). -/
def cacheScores (m : Model) (lscore : ℕ → Finset ℕ → ℤ) (cache : ℕ → ℤ)
    (valid : ℕ → ℕ → Bool) (δ0 : Matq) : Matq :=
  (pairList m.num_nodes).foldl (cacheStep m lscore cache valid) δ0

/-- Last produced value of g along a list, preferring later elements. -/
def lastHit {α : Type} (g : α → Option ℤ) : List α → Option ℤ
  | [] => none
  | p :: l =>
      match lastHit g l with
      | some v => some v
      | none => g p

/-- Internal state of an ArcOperatorSet after construction. -/
structure ArcState where
  delta : Matq
  valid_op : ℕ → ℕ → Bool
  sorted_idx : List ℕ
  max_indegree : ℕ

/-- The ArcOperatorSet constructor exactly as DEFINED at operators.hpp lines
549 to 601.  The parameter order follows the definition, whose third
positional parameter is named blacklist and whose fourth is named whitelist
(the declaration at lines 521 to 523 names them in the opposite order).
The body knocks out both directions of every pair in the whitelist
parameter, only the given direction of every pair in the blacklist
parameter, then the diagonal; sorted_idx collects the column-major linear
index of every cell still valid, rows outer.  δg is the uninitialized
memory the Eigen delta matrix starts from. -/
def arcOperatorSetInit (m : Model) (blacklist whitelist : List (String × String))
    (max_indegree : ℕ) (δg : Matq) : ArcState :=
  let n := m.num_nodes
  let valid0 : ℕ → ℕ → Bool := fun _ _ => true
  let afterWhite :=
    whitelist.foldl
      (fun (st : Matq × (ℕ → ℕ → Bool)) e =>
        let si := m.index e.1
        let di := m.index e.2
        (updateCell (updateCell st.1 (si, di) lowest) (di, si) lowest,
         fun x y => if (x = si ∧ y = di) ∨ (x = di ∧ y = si) then false else st.2 x y))
      (δg, valid0)
  let afterBlack :=
    blacklist.foldl
      (fun (st : Matq × (ℕ → ℕ → Bool)) e =>
        let si := m.index e.1
        let di := m.index e.2
        (updateCell st.1 (si, di) lowest,
         fun x y => if x = si ∧ y = di then false else st.2 x y))
      afterWhite
  let afterDiag :=
    (List.range n).foldl
      (fun (st : Matq × (ℕ → ℕ → Bool)) i =>
        (updateCell st.1 (i, i) lowest,
         fun x y => if x = i ∧ y = i then false else st.2 x y))
      afterBlack
  { delta := afterDiag.1
    valid_op := afterDiag.2
    sorted_idx :=
      (List.range n).flatMap
        (fun i => ((List.range n).filter (fun j => afterDiag.2 i j)).map
          (fun j => i + j * n))
    max_indegree := max_indegree }

/-- One step of the OperatorPool::find_max scan over a produced candidate:
keep the candidate only when its delta strictly exceeds the best delta so
far. -/
def poolScanStep (acc : ℤ × Option Op) (op : Op) : ℤ × Option Op :=
  if acc.1 < op.delta then (op.delta, some op) else acc

/-- OperatorPool::find_max (operators.hpp lines 985 to 1001): scan the
operator sets in pool order, keeping the candidate whose delta strictly
exceeds the best delta so far, which starts at the lowest double. -/
def poolFindMax (m : Model) (sets : List (Model → Option Op)) : Option Op :=
  (sets.foldl
    (fun (acc : ℤ × Option Op) f =>
      match f m with
      | some newOp => poolScanStep acc newOp
      | none => acc)
    (lowest, none)).2

/-- OperatorPool::find_max with a tabu set (operators.hpp lines 1003 to
1021): an empty tabu set delegates to the overload without tabu; otherwise
the same scan runs over the tabu overloads of the sets.  Every set is a pair
of its no-tabu and tabu find_max entry points. -/
def poolFindMaxTabu (m : Model)
    (sets : List ((Model → Option Op) × (Model → List Op → Option Op)))
    (tabu : List Op) : Option Op :=
  if tabu.isEmpty then poolFindMax m (sets.map Prod.fst)
  else
    (sets.foldl
      (fun (acc : ℤ × Option Op) f =>
        match f.2 m tabu with
        | some newOp => poolScanStep acc newOp
        | none => acc)
      (lowest, none)).2

/-- One step of the declarative best-candidate selection: keep the earlier
candidate unless the new one has a strictly larger delta. -/
def bestStep (acc : Option Op) (op : Op) : Option Op :=
  match acc with
  | none => some op
  | some b => if b.delta < op.delta then some op else acc

/-- Declarative best-candidate selection following the spec words for
OperatorPool::find_max: among the operators the sets returned, in pool
order, pick the one with the largest delta, earlier sets winning ties
(a later candidate replaces the current best only on a strictly larger
delta). -/
def bestBySpec (cands : List Op) : Option Op :=
  cands.foldl bestStep none

/-- A list none of whose elements produces a value has no last hit. -/
theorem lastHit_eq_none {α : Type} (g : α → Option ℤ) (L : List α)
    (h : ∀ p ∈ L, g p = none) : lastHit g L = none := by
  induction L with
  | nil => rfl
  | cons p L ih =>
      have hp : g p = none := h p (List.mem_cons_self p L)
      have hL : lastHit g L = none := ih (fun q hq => h q (List.mem_cons_of_mem p hq))
      simp [lastHit, hL, hp]

/-- lastHit over a mapped list. -/
theorem lastHit_map {α β : Type} (g : β → Option ℤ) (f : α → β) (L : List α) :
    lastHit g (L.map f) = lastHit (fun a => g (f a)) L := by
  induction L with
  | nil => rfl
  | cons p L ih => simp [lastHit, ih]

/-- lastHit over an appended list prefers the second part. -/
theorem lastHit_append {α : Type} (g : α → Option ℤ) (L1 L2 : List α) :
    lastHit g (L1 ++ L2) =
      match lastHit g L2 with
      | some v => some v
      | none => lastHit g L1 := by
  induction L1 with
  | nil =>
      cases h : lastHit g L2 <;> simp [lastHit, h]
  | cons p L1 ih =>
      simp only [List.cons_append, lastHit]
      cases h2 : lastHit g L2 <;> cases h1 : lastHit g L1 <;>
        simp [lastHit, ih, h1, h2]

/-- lastHit over a flatMap is the lastHit of the blockwise lastHits. -/
theorem lastHit_flatMap {α β : Type} (g : β → Option ℤ) (f : α → List β)
    (L : List α) :
    lastHit g (L.flatMap f) = lastHit (fun a => lastHit g (f a)) L := by
  induction L with
  | nil => rfl
  | cons p L ih =>
      simp only [List.flatMap_cons, lastHit_append, ih, lastHit]

/-- lastHit over an initial range with a single producing index. -/
theorem lastHit_range_single (g : ℕ → Option ℤ) (a n : ℕ) (han : a < n)
    (hg : ∀ d, d < n → d ≠ a → g d = none) :
    lastHit g (List.range n) = g a := by
  induction n with
  | zero => omega
  | succ n ih =>
      rw [List.range_succ, lastHit_append]
      by_cases hna : n = a
      · subst hna
        have hnone : lastHit g (List.range n) = none := by
          apply lastHit_eq_none
          intro d hd
          have hdn : d < n := List.mem_range.mp hd
          exact hg d (by omega) (by omega)
        cases h : g n <;> simp [lastHit, h, hnone]
      · have hgn : g n = none := hg n (by omega) hna
        have hrec : lastHit g (List.range n) = g a :=
          ih (by omega) (fun d hd hda => hg d (by omega) hda)
        simp [lastHit, hgn, hrec]

/-- lastHit over an initial range with exactly two producing indices a < b:
the later index b wins, a is the fallback. -/
theorem lastHit_range_two (g : ℕ → Option ℤ) (a b n : ℕ) (hab : a < b)
    (hbn : b < n) (hg : ∀ d, d < n → d ≠ a → d ≠ b → g d = none) :
    lastHit g (List.range n) =
      match g b with
      | some v => some v
      | none => g a := by
  induction n with
  | zero => omega
  | succ n ih =>
      rw [List.range_succ, lastHit_append]
      by_cases hnb : n = b
      · subst hnb
        have hsingle : lastHit g (List.range n) = g a :=
          lastHit_range_single g a n hab
            (fun d hd hda => hg d (by omega) hda (by omega))
        cases h : g n <;> simp [lastHit, h, hsingle]
      · have hgn : g n = none := hg n (by omega) (by omega) hnb
        have hrec := ih (by omega) (fun d hd hda hdb => hg d (by omega) hda hdb)
        rw [← hrec]
        simp [lastHit, hgn]

/-- The value of one cell after running a list of cache_scores iterations:
the last iteration that writes the cell wins; if none writes it, the initial
matrix shows through.  This holds because no written value reads the delta
matrix. -/
theorem foldl_cacheStep_cell (m : Model) (lscore : ℕ → Finset ℕ → ℤ)
    (cache : ℕ → ℤ) (valid : ℕ → ℕ → Bool) (L : List (ℕ × ℕ)) (δ0 : Matq)
    (c : ℕ × ℕ) :
    (L.foldl (cacheStep m lscore cache valid) δ0) c.1 c.2 =
      match lastHit (fun p => hitCell m lscore cache valid p c) L with
      | some v => v
      | none => δ0 c.1 c.2 := by
  induction L generalizing δ0 with
  | nil => rfl
  | cons p L ih =>
      rw [List.foldl_cons, ih]
      cases h : lastHit (fun q => hitCell m lscore cache valid q c) L with
      | some v => simp [lastHit, h]
      | none =>
          simp only [lastHit, h]
          unfold cacheStep hitCell
          cases hv : hitVal m lscore cache valid p with
          | none => simp
          | some cv =>
              obtain ⟨c2, v⟩ := cv
              by_cases hc : c2 = c
              · subst hc
                simp [updateCell]
              · simp [updateCell, hc, Prod.mk.eta]
                intro heq
                exact absurd heq.symm hc

/-- Iterations whose dest is neither endpoint of the cell never write the
cell. -/
theorem hitCell_miss (m : Model) (lscore : ℕ → Finset ℕ → ℤ) (cache : ℕ → ℤ)
    (valid : ℕ → ℕ → Bool) (d src s t : ℕ)
    (h1 : ¬(d = t ∧ src = s)) (h2 : ¬(d = s ∧ src = t)) :
    hitCell m lscore cache valid (d, src) (s, t) = none := by
  unfold hitCell hitVal
  by_cases hval : valid src d = true
  · simp only [hval, if_true]
    have hne1 : ((src, d) : ℕ × ℕ) ≠ (s, t) := by
      intro hh
      rw [Prod.mk.injEq] at hh
      exact h1 ⟨hh.2, hh.1⟩
    have hne2 : ((d, src) : ℕ × ℕ) ≠ (s, t) := by
      intro hh
      rw [Prod.mk.injEq] at hh
      exact h2 ⟨hh.1, hh.2⟩
    by_cases he1 : m.edge src d = true
    · simp [he1, hne1]
    · by_cases he2 : m.edge d src = true
      · simp [he1, he2, hne2]
      · simp [he1, he2, hne1]
  · simp [hval]

/-- The write into the cell (s, t) performed by the iteration with dest t
and source s (the only column-write that can reach the cell). -/
theorem hitCell_at_dest (m : Model) (lscore : ℕ → Finset ℕ → ℤ)
    (cache : ℕ → ℤ) (valid : ℕ → ℕ → Bool) (s t : ℕ) (hst : s ≠ t) :
    hitCell m lscore cache valid (t, s) (s, t) =
      if valid s t = true then
        if m.edge s t = true then some (remF m lscore cache s t)
        else if m.edge t s = true then none
        else some (addF m lscore cache s t)
      else none := by
  unfold hitCell hitVal
  by_cases hval : valid s t = true
  · simp only [hval, if_true]
    by_cases he1 : m.edge s t = true
    · simp [he1]
    · by_cases he2 : m.edge t s = true
      · have hne : ((t, s) : ℕ × ℕ) ≠ (s, t) := by
          intro hh
          rw [Prod.mk.injEq] at hh
          exact hst (hh.2.symm ▸ hh.1 ▸ rfl)
        simp [he1, he2, hne]
      · simp [he1, he2]
  · simp [hval]

/-- The write into the cell (s, t) performed by the iteration with dest s
and source t (the row-write of the flip case). -/
theorem hitCell_at_source (m : Model) (lscore : ℕ → Finset ℕ → ℤ)
    (cache : ℕ → ℤ) (valid : ℕ → ℕ → Bool) (s t : ℕ) (hst : s ≠ t) :
    hitCell m lscore cache valid (s, t) (s, t) =
      if valid t s = true then
        if m.edge t s = true then none
        else if m.edge s t = true then some (flipF m lscore cache s t)
        else none
      else none := by
  unfold hitCell hitVal
  have hne : ((t, s) : ℕ × ℕ) ≠ (s, t) := by
    intro hh
    rw [Prod.mk.injEq] at hh
    exact hst (hh.2.symm ▸ hh.1 ▸ rfl)
  by_cases hval : valid t s = true
  · simp only [hval, if_true]
    by_cases he1 : m.edge t s = true
    · simp [he1, hne]
    · by_cases he2 : m.edge s t = true
      · simp [he1, he2]
      · simp [he1, he2, hne]
  · simp [hval]

/-- Lift of foldl_cacheStep_cell to the actual double loop: the value of
cell (s, t) is decided by the dest = max s t iteration, then the
dest = min s t iteration, then the initial matrix.  Version for s < t. -/
theorem cacheScores_cell_lt (m : Model) (lscore : ℕ → Finset ℕ → ℤ)
    (cache : ℕ → ℤ) (valid : ℕ → ℕ → Bool) (δ0 : Matq) (s t : ℕ)
    (hs : s < m.num_nodes) (ht : t < m.num_nodes) (hlt : s < t) :
    cacheScores m lscore cache valid δ0 s t =
      match hitCell m lscore cache valid (t, s) (s, t) with
      | some v => v
      | none =>
          match hitCell m lscore cache valid (s, t) (s, t) with
          | some v => v
          | none => δ0 s t := by
  have hst : s ≠ t := Nat.ne_of_lt hlt
  have base := foldl_cacheStep_cell m lscore cache valid
    (pairList m.num_nodes) δ0 (s, t)
  rw [cacheScores] at *
  rw [base]
  rw [pairList, lastHit_flatMap]
  have hmap : ∀ d : ℕ,
      lastHit (fun p => hitCell m lscore cache valid p (s, t))
        ((List.range m.num_nodes).map (fun source => (d, source))) =
      lastHit (fun src => hitCell m lscore cache valid (d, src) (s, t))
        (List.range m.num_nodes) := by
    intro d
    rw [lastHit_map]
  have hGt :
      lastHit (fun src => hitCell m lscore cache valid (t, src) (s, t))
        (List.range m.num_nodes) =
      hitCell m lscore cache valid (t, s) (s, t) := by
    apply lastHit_range_single _ s _ hs
    intro src _ hsrc
    exact hitCell_miss m lscore cache valid t src s t
      (fun hh => hsrc hh.2) (fun hh => hst hh.1.symm)
  have hGs :
      lastHit (fun src => hitCell m lscore cache valid (s, src) (s, t))
        (List.range m.num_nodes) =
      hitCell m lscore cache valid (s, t) (s, t) := by
    apply lastHit_range_single _ t _ ht
    intro src _ hsrc
    exact hitCell_miss m lscore cache valid s src s t
      (fun hh => hst hh.1) (fun hh => hsrc hh.2)
  have hrange := lastHit_range_two
    (fun d => lastHit (fun src => hitCell m lscore cache valid (d, src) (s, t))
      (List.range m.num_nodes)) s t m.num_nodes hlt ht
    (fun d _ hda hdb => by
      apply lastHit_eq_none
      intro src _
      exact hitCell_miss m lscore cache valid d src s t
        (fun hh => hdb hh.1) (fun hh => hda hh.1))
  simp only [hmap]
  rw [hrange]
  simp only [hGt, hGs]
  cases hitCell m lscore cache valid (t, s) (s, t) <;>
    cases hitCell m lscore cache valid (s, t) (s, t) <;> simp

/-- Same as cacheScores_cell_lt for t < s: now the dest = s iteration is the
later one. -/
theorem cacheScores_cell_gt (m : Model) (lscore : ℕ → Finset ℕ → ℤ)
    (cache : ℕ → ℤ) (valid : ℕ → ℕ → Bool) (δ0 : Matq) (s t : ℕ)
    (hs : s < m.num_nodes) (ht : t < m.num_nodes) (hgt : t < s) :
    cacheScores m lscore cache valid δ0 s t =
      match hitCell m lscore cache valid (s, t) (s, t) with
      | some v => v
      | none =>
          match hitCell m lscore cache valid (t, s) (s, t) with
          | some v => v
          | none => δ0 s t := by
  have hst : s ≠ t := fun h => absurd h.symm (Nat.ne_of_lt hgt)
  have base := foldl_cacheStep_cell m lscore cache valid
    (pairList m.num_nodes) δ0 (s, t)
  rw [cacheScores] at *
  rw [base]
  rw [pairList, lastHit_flatMap]
  have hmap : ∀ d : ℕ,
      lastHit (fun p => hitCell m lscore cache valid p (s, t))
        ((List.range m.num_nodes).map (fun source => (d, source))) =
      lastHit (fun src => hitCell m lscore cache valid (d, src) (s, t))
        (List.range m.num_nodes) := by
    intro d
    rw [lastHit_map]
  have hGt :
      lastHit (fun src => hitCell m lscore cache valid (t, src) (s, t))
        (List.range m.num_nodes) =
      hitCell m lscore cache valid (t, s) (s, t) := by
    apply lastHit_range_single _ s _ hs
    intro src _ hsrc
    exact hitCell_miss m lscore cache valid t src s t
      (fun hh => hsrc hh.2) (fun hh => hst hh.1.symm)
  have hGs :
      lastHit (fun src => hitCell m lscore cache valid (s, src) (s, t))
        (List.range m.num_nodes) =
      hitCell m lscore cache valid (s, t) (s, t) := by
    apply lastHit_range_single _ t _ ht
    intro src _ hsrc
    exact hitCell_miss m lscore cache valid s src s t
      (fun hh => hst hh.1) (fun hh => hsrc hh.2)
  have hrange := lastHit_range_two
    (fun d => lastHit (fun src => hitCell m lscore cache valid (d, src) (s, t))
      (List.range m.num_nodes)) t s m.num_nodes hgt hs
    (fun d _ hda hdb => by
      apply lastHit_eq_none
      intro src _
      exact hitCell_miss m lscore cache valid d src s t
        (fun hh => hda hh.1) (fun hh => hdb hh.1))
  simp only [hmap]
  rw [hrange]
  simp only [hGt, hGs]
  cases hitCell m lscore cache valid (t, s) (s, t) <;>
    cases hitCell m lscore cache valid (s, t) (s, t) <;> simp

/-- Claim C2 (amended): after ArcOperatorSet::cache_scores, for every
ordered pair (s, t) with valid_op(s, t) true and at most one arc between
s and t: an existing arc s to t leaves in delta(s, t) the remove gain,
except that when the reverse cell is also valid and s is the larger index
the flip gain (of flipping s to t) overwrites it, because the column pass
of the larger destination index runs later; symmetrically, an existing arc
t to s leaves in delta(t, s) the flip gain except that when the reverse
cell is valid and s is the larger index the remove gain wins; with no arc
between s and t, delta(s, t) is the add gain unconditionally.  This is the
order-corrected form of the spec closed forms of section 4.2. -/
theorem arcOperatorSet_cacheScores_delta_closed_form
    (m : Model) (lscore : ℕ → Finset ℕ → ℤ) (cache : ℕ → ℤ)
    (valid : ℕ → ℕ → Bool) (δ0 : Matq) (s t : ℕ)
    (hs : s < m.num_nodes) (ht : t < m.num_nodes) (hst : s ≠ t)
    (hv : valid s t = true) :
    (m.edge s t = true → m.edge t s = false →
      cacheScores m lscore cache valid δ0 s t =
        if valid t s = true ∧ t < s then flipF m lscore cache s t
        else remF m lscore cache s t)
    ∧
    (m.edge t s = true → m.edge s t = false →
      cacheScores m lscore cache valid δ0 t s =
        if valid t s = true ∧ t < s then remF m lscore cache t s
        else flipF m lscore cache t s)
    ∧
    (m.edge s t = false → m.edge t s = false →
      cacheScores m lscore cache valid δ0 s t = addF m lscore cache s t) := by
  refine ⟨?_, ?_, ?_⟩
  · intro he1 he2
    have hd := hitCell_at_dest m lscore cache valid s t hst
    have hsrc := hitCell_at_source m lscore cache valid s t hst
    rcases Nat.lt_or_ge s t with hlt | hge
    · rw [cacheScores_cell_lt m lscore cache valid δ0 s t hs ht hlt]
      have hns : ¬ t < s := by omega
      simp [hd, hsrc, hv, he1, he2, hns]
    · have hgt : t < s := by omega
      rw [cacheScores_cell_gt m lscore cache valid δ0 s t hs ht hgt]
      by_cases hvts : valid t s = true
      · simp [hd, hsrc, hv, he1, he2, hvts, hgt]
      · simp [hd, hsrc, hv, he1, he2, hvts]
  · intro he1 he2
    have hd := hitCell_at_dest m lscore cache valid t s (fun h => hst h.symm)
    have hsrc := hitCell_at_source m lscore cache valid t s (fun h => hst h.symm)
    rcases Nat.lt_or_ge t s with hlt | hge
    · rw [cacheScores_cell_lt m lscore cache valid δ0 t s ht hs hlt]
      by_cases hvts : valid t s = true
      · simp [hd, hsrc, hv, he1, he2, hvts, hlt]
      · simp [hd, hsrc, hv, he1, he2, hvts]
    · have hgt : s < t := by omega
      rw [cacheScores_cell_gt m lscore cache valid δ0 t s ht hs hgt]
      have hns : ¬ t < s := by omega
      simp [hd, hsrc, hv, he1, he2, hns]
  · intro he1 he2
    have hd := hitCell_at_dest m lscore cache valid s t hst
    have hsrc := hitCell_at_source m lscore cache valid s t hst
    rcases Nat.lt_or_ge s t with hlt | hge
    · rw [cacheScores_cell_lt m lscore cache valid δ0 s t hs ht hlt]
      simp [hd, hsrc, hv, he1, he2]
    · have hgt : t < s := by omega
      rw [cacheScores_cell_gt m lscore cache valid δ0 s t hs ht hgt]
      by_cases hvts : valid t s = true
      · simp [hd, hsrc, hv, he1, he2, hvts]
      · simp [hd, hsrc, hv, he1, he2, hvts]

/-- Concrete two-node model with the single arc 0 to 1 (names A, B), used to
exercise cache_scores. -/
def exModel2 : Model :=
  { num_nodes := 2
    edge := fun a b => a == 0 && b == 1
    can_add_edge := fun _ _ => true
    can_flip_edge := fun _ _ => true
    name := fun i => if i == 0 then "A" else "B"
    index := fun s => if s == "A" then 0 else 1
    node_type := fun _ => .typeA }

/-- Concrete local score: node 0 with exactly parent set containing 1 scores
one, everything else scores zero. -/
def exScore2 : ℕ → Finset ℕ → ℤ :=
  fun node ps => if node = 0 ∧ ps = ({1} : Finset ℕ) then 1 else 0

/-- Concrete local score cache holding zero for every node. -/
def exCache2 : ℕ → ℤ := fun _ => 0

/-- ArcOperatorSet state for exModel2 with empty whitelist and blacklist and
no in-degree cap; the leftover matrix memory is all zero. -/
def exState2 : ArcState := arcOperatorSetInit exModel2 [] [] 0 (fun _ _ => 0)

/-- Claim C2 counterexample: for the two-node model with arc 0 to 1, both
cells (0, 1) and (1, 0) are valid, so the claim instantiated at the ordered
pair (s, t) = (1, 0) asserts that delta(0, 1) equals the flip closed form;
but cache_scores leaves the remove closed form there (the dest = 1 column
pass runs after the dest = 0 pass and overwrites the flip value), and the
two closed forms differ on this score, so the claimed invariant is false. -/
theorem cacheScores_spec_invariant_fails_concrete :
    exState2.valid_op 1 0 = true ∧
    exModel2.edge 0 1 = true ∧
    ¬ (cacheScores exModel2 exScore2 exCache2 exState2.valid_op exState2.delta 0 1 =
        exScore2 0 (insert 1 (exModel2.parents 0)) +
          exScore2 1 ((exModel2.parents 1).erase 0) - exCache2 0 - exCache2 1) := by
  refine ⟨by decide, by decide, ?_⟩
  decide

/-- Claim C2 witness: the order-corrected closed form evaluated on the
concrete two-node model at the valid pair (0, 1). -/
theorem arcOperatorSet_cacheScores_delta_closed_form_witness :
    0 < exModel2.num_nodes ∧ exState2.valid_op 0 1 = true ∧
    cacheScores exModel2 exScore2 exCache2 exState2.valid_op exState2.delta 0 1 =
      (if exState2.valid_op 1 0 = true ∧ 1 < 0 then
        flipF exModel2 exScore2 exCache2 0 1
      else remF exModel2 exScore2 exCache2 0 1) :=
  ⟨by decide, by decide,
    (arcOperatorSet_cacheScores_delta_closed_form exModel2 exScore2 exCache2
      exState2.valid_op exState2.delta 0 1 (by decide) (by decide) (by decide)
      (by decide)).1 (by decide) (by decide)⟩

/-- Claim C6: opposite maps AddArc(s, t, d) to RemoveArc(s, t, -d),
RemoveArc(s, t, d) to AddArc(s, t, -d), FlipArc(s, t, d) to
FlipArc(t, s, -d) and ChangeNodeType(n, T, d) to ChangeNodeType(n,
opposite T, -d); consequently the double opposite is the identity, hence
equal to the original under the tabu identity and carrying the same delta. -/
theorem operator_opposite_maps_and_involution :
    (∀ (s t : String) (d : ℤ),
      (Op.addArc s t d).opposite = Op.removeArc s t (-d)) ∧
    (∀ (s t : String) (d : ℤ),
      (Op.removeArc s t d).opposite = Op.addArc s t (-d)) ∧
    (∀ (s t : String) (d : ℤ),
      (Op.flipArc s t d).opposite = Op.flipArc t s (-d)) ∧
    (∀ (n : String) (ty : FactorType) (d : ℤ),
      (Op.changeNodeType n ty d).opposite = Op.changeNodeType n ty.opposite (-d)) ∧
    (∀ op : Op, op.opposite.opposite = op ∧
      opEqual op.opposite.opposite op = true ∧
      op.opposite.opposite.delta = op.delta) := by
  refine ⟨fun s t d => rfl, fun s t d => rfl, fun s t d => rfl, fun n ty d => rfl, ?_⟩
  intro op
  cases op with
  | addArc s t d => exact ⟨by simp [Op.opposite], by simp [Op.opposite, opEqual],
      by simp [Op.opposite, Op.delta]⟩
  | removeArc s t d => exact ⟨by simp [Op.opposite], by simp [Op.opposite, opEqual],
      by simp [Op.opposite, Op.delta]⟩
  | flipArc s t d => exact ⟨by simp [Op.opposite], by simp [Op.opposite, opEqual],
      by simp [Op.opposite, Op.delta]⟩
  | changeNodeType n ty d =>
      cases ty <;>
        exact ⟨by simp [Op.opposite, FactorType.opposite],
          by simp [Op.opposite, FactorType.opposite, opEqual],
          by simp [Op.opposite, Op.delta]⟩

/-- Claim C7: the executable operator equality agrees with the spec tabu
identity (kinds match plus identity fields equal), ignores the delta
entirely, and equal operators receive the same hash from HashOperator for
every underlying string hash function. -/
theorem opEqual_matches_spec_and_hash (a b : Op) (stringHash : String → Nat) :
    (opEqual a b = true ↔ tabuIdentity a b) ∧
    (∀ da db : ℤ, opEqual (a.withDelta da) (b.withDelta db) = opEqual a b) ∧
    (opEqual a b = true → hashOperator stringHash a = hashOperator stringHash b) := by
  refine ⟨?_, ?_, ?_⟩
  · cases a <;> cases b <;> simp [opEqual, tabuIdentity, Op.type]
  · intro da db
    cases a <;> cases b <;> simp [opEqual, Op.withDelta]
  · intro h
    cases a <;> cases b <;> simp [opEqual] at h <;> try (obtain ⟨rfl, rfl⟩ := h; rfl)

/-- Claim C7 witness: two AddArc operators over the same arc with different
deltas are equal and hash identically under the string length hash. -/
theorem opEqual_matches_spec_and_hash_witness :
    opEqual (Op.addArc "A" "B" 1) (Op.addArc "A" "B" 7) = true ∧
    hashOperator (fun s => s.length) (Op.addArc "A" "B" 1) =
      hashOperator (fun s => s.length) (Op.addArc "A" "B" 7) :=
  ⟨by decide,
    (opEqual_matches_spec_and_hash (Op.addArc "A" "B" 1) (Op.addArc "A" "B" 7)
      (fun s => s.length)).2.2 (by decide)⟩

/-- Claim C10 counterexample: the find_max sort comparator compares by
non-strict greater-or-equal, so on equal deltas it relates an index to
itself: it is not irreflexive, hence not a strict weak ordering, and it
violates the std::sort comparator requirement. -/
theorem sortComp_reflexive_counterexample :
    sortComp (fun _ => (0 : ℤ)) 0 0 = true ∧
    ¬ (sortComp (fun _ => (0 : ℤ)) 0 0 = false) := by
  exact ⟨by decide, by decide⟩

/-- Claim C10 (amended): the comparator is a TOTAL PREORDER on indices,
total and transitive, but it is reflexive at every index, so it is not
irreflexive and not a strict weak ordering as std::sort requires. -/
theorem sortComp_total_preorder_reflexive (dlin : ℕ → ℤ) (i j k : ℕ) :
    sortComp dlin i i = true ∧
    (sortComp dlin i j = true ∨ sortComp dlin j i = true) ∧
    (sortComp dlin i j = true → sortComp dlin j k = true →
      sortComp dlin i k = true) := by
  refine ⟨by simp [sortComp], ?_, ?_⟩
  · simp only [sortComp, decide_eq_true_eq]
    exact le_total (dlin j) (dlin i)
  · simp only [sortComp, decide_eq_true_eq]
    exact fun h1 h2 => le_trans h2 h1

/-- Claim C10 witness: the amended comparator properties evaluated on the
identity delta at indices 2, 1, 0. -/
theorem sortComp_total_preorder_reflexive_witness :
    sortComp (fun i => (i : ℤ)) 2 1 = true ∧ sortComp (fun i => (i : ℤ)) 1 0 = true ∧
    sortComp (fun i => (i : ℤ)) 2 0 = true :=
  ⟨by decide, by decide,
    (sortComp_total_preorder_reflexive (fun i => (i : ℤ)) 2 1 0).2.2
      (by decide) (by decide)⟩

/-- Claim C8 counterexample: the LocalScoreCache constructor writes nothing
into the freshly allocated Eigen vector, so when the ambient allocation is
nonzero the fresh cache is not all-zero. -/
theorem localScoreCacheNew_not_all_zero :
    ¬ ((localScoreCacheNew 1 (fun _ => 1)).local_score 0 = 0) := by
  decide

/-- Claim C8 (amended): a freshly constructed LocalScoreCache exposes the
contents of the allocation unchanged (the constructor only sizes the
buffer), so it is all-zero exactly when that memory happened to be zero;
entries are specified only after cache_local_scores, which overwrites every
index below num_nodes with the current local score. -/
theorem localScoreCacheNew_exposes_memory (n : ℕ) (mem : ℕ → ℤ) (i : ℕ)
    (currentScore : ℕ → ℤ) (hi : i < n) :
    (localScoreCacheNew n mem).local_score i = mem i ∧
    ((localScoreCacheNew n mem).cache_local_scores currentScore).local_score i =
      currentScore i := by
  constructor
  · rfl
  · simp [localScoreCacheNew, LocalScoreCache.cache_local_scores,
      LocalScoreCache.local_score, hi]

/-- Claim C8 witness: the amended statement evaluated at a two-entry cache
whose ambient memory holds five everywhere. -/
theorem localScoreCacheNew_exposes_memory_witness :
    (0 : ℕ) < 2 ∧
    ((localScoreCacheNew 2 (fun _ => 5)).local_score 0 = 5 ∧
      ((localScoreCacheNew 2 (fun _ => 5)).cache_local_scores
        (fun j => (j : ℤ))).local_score 0 = 0) :=
  ⟨by decide, localScoreCacheNew_exposes_memory 2 (fun _ => 5) 0 (fun j => (j : ℤ))
    (by decide)⟩

/-- Concrete one-node semiparametric model (name A, type typeA) used to
exercise ChangeNodeTypeSet::find_max with a tabu set. -/
def exModelCNT : Model :=
  { num_nodes := 1
    edge := fun _ _ => false
    can_add_edge := fun _ _ => true
    can_flip_edge := fun _ _ => true
    name := fun _ => "A"
    index := fun _ => 0
    node_type := fun _ => .typeA }

/-- Tabu set holding exactly the type change of node A to typeB. -/
def exTabuCNT : List Op := [Op.changeNodeType "A" FactorType.typeB 5]

/-- Claim C1: code bug witnessed at a concrete input.  With the single
candidate operator ChangeNodeType(A, typeB) in the tabu set,
ChangeNodeTypeSet::find_max(model, tabu) RETURNS that operator: the tabu
test at operators.hpp line 900 is inverted, and the returned operator is
contained in the tabu set, contradicting the claim that no find_max ever
returns a tabu operator. -/
theorem changeNodeTypeSet_find_max_tabu_returns_forbidden :
    changeNodeTypeFindMaxTabu exModelCNT (fun _ => 5) [0] exTabuCNT =
      some (Op.changeNodeType "A" FactorType.typeB 5) ∧
    tabuContains exTabuCNT (Op.changeNodeType "A" FactorType.typeB 5) = true := by
  exact ⟨by decide, by decide⟩

set_option maxRecDepth 8000 in
/-- Claim C3: code bug witnessed at a concrete input.  Calling the
constructor with the argument order of its DECLARATION (third argument the
whitelist, fourth the blacklist) on whitelist A to B: the definition binds
the third positional argument to its blacklist handling, so only cell
(0, 1) is knocked out and cell (1, 0) stays a valid candidate with its
garbage delta, while the claim demands both directions invalid at the
lowest sentinel.  Passing the same pair as the FOURTH argument produces the
both-directions knockout the declaration promises for the whitelist. -/
theorem arcOperatorSetInit_swaps_whitelist_blacklist :
    (arcOperatorSetInit exModel2 [("A", "B")] [] 0 (fun _ _ => 0)).valid_op 0 1 = false ∧
    (arcOperatorSetInit exModel2 [("A", "B")] [] 0 (fun _ _ => 0)).valid_op 1 0 = true ∧
    (arcOperatorSetInit exModel2 [("A", "B")] [] 0 (fun _ _ => 0)).delta 1 0 = 0 ∧
    (arcOperatorSetInit exModel2 [] [("A", "B")] 0 (fun _ _ => 0)).valid_op 0 1 = false ∧
    (arcOperatorSetInit exModel2 [] [("A", "B")] 0 (fun _ _ => 0)).valid_op 1 0 = false ∧
    (arcOperatorSetInit exModel2 [] [("A", "B")] 0 (fun _ _ => 0)).delta 1 0 = lowest := by
  refine ⟨by decide, by decide, by decide, by decide, by decide, ?_⟩
  decide

/-- A scan whose body never produces a value returns none. -/
theorem findSome_eq_none_of_all_none {α β : Type} (f : α → Option β)
    (l : List α) (h : ∀ a ∈ l, f a = none) : l.findSome? f = none := by
  induction l with
  | nil => rfl
  | cons a l ih =>
      have ha : f a = none := h a (List.mem_cons_self a l)
      rw [List.findSome?_cons, ha]
      exact ih (fun b hb => h b (List.mem_cons_of_mem a hb))

/-- A scan that produces a value did so at some list element. -/
theorem exists_mem_of_findSome_eq_some {α β : Type} (f : α → Option β)
    (l : List α) (b : β) (h : l.findSome? f = some b) :
    ∃ a ∈ l, f a = some b := by
  induction l with
  | nil => simp [List.findSome?] at h
  | cons a l ih =>
      rw [List.findSome?_cons] at h
      cases ha : f a with
      | some v =>
          simp only [ha] at h
          exact ⟨a, List.mem_cons_self a l, ha.trans h⟩
      | none =>
          simp only [ha] at h
          obtain ⟨x, hx, hfx⟩ := ih h
          exact ⟨x, List.mem_cons_of_mem a hx, hfx⟩

/-- Claim C9: ArcOperatorSet::find_max on an empty sorted_idx returns none
(both overloads, whatever max_indegree is), and the tabu overload returns
none whenever every candidate the scan can construct is contained in the
tabu set; the embedding is a total function, so neither case signals an
error.  The two tabu hypotheses state the all-forbidden condition for the
capped and uncapped scan bodies. -/
theorem arcFindMax_none_on_empty_or_all_tabu (m : Model) (δ : Matq)
    (max_indegree : ℕ) (sorted_idx : List ℕ) (tabu : List Op)
    (htabu1 : ∀ idx ∈ sorted_idx,
      (candAt m δ true max_indegree idx).all (fun op => tabuContains tabu op) = true)
    (htabu2 : ∀ idx ∈ sorted_idx,
      (candAt m δ false max_indegree idx).all (fun op => tabuContains tabu op) = true) :
    arcFindMax m δ max_indegree [] = none ∧
    arcFindMaxTabu m δ max_indegree [] tabu = none ∧
    arcFindMaxTabu m δ max_indegree sorted_idx tabu = none := by
  refine ⟨?_, ?_, ?_⟩
  · unfold arcFindMax arcFindMaxIndegree
    by_cases h : 0 < max_indegree <;> simp [h, sortDesc]
  · unfold arcFindMaxTabu arcFindMaxIndegreeTabu
    by_cases h : 0 < max_indegree <;> simp [h, sortDesc]
  · unfold arcFindMaxTabu arcFindMaxIndegreeTabu
    have key : ∀ limited : Bool,
        (∀ idx ∈ sorted_idx,
          (candAt m δ limited max_indegree idx).all
            (fun op => tabuContains tabu op) = true) →
        ((sortDesc (deltaLin m.num_nodes δ) sorted_idx).findSome?
          (fun idx =>
            match candAt m δ limited max_indegree idx with
            | some op => if tabuContains tabu op then none else some op
            | none => none)) = none := by
      intro limited htabu
      apply findSome_eq_none_of_all_none
      intro idx hidx
      have hmem : idx ∈ sorted_idx := (mem_sortDesc _ _ _).mp hidx
      have hall := htabu idx hmem
      cases hcand : candAt m δ limited max_indegree idx with
      | none => simp
      | some op =>
          rw [hcand] at hall
          simp only [Option.all_some] at hall
          simp [hall]
    by_cases h : 0 < max_indegree
    · simp only [h, if_true]
      exact key true htabu1
    · simp only [h, if_false]
      exact key false htabu2

/-- Tabu set containing the single removable arc candidate of exModel2. -/
def exTabuArc : List Op := [Op.removeArc "A" "B" 0]

/-- Claim C9 witness: on the two-node model with arc 0 to 1 and the single
candidate cell (0, 1) (linear index 2), whose scan produces RemoveArc(A, B)
which the tabu set contains, both empty-index and all-tabu scans return
none. -/
theorem arcFindMax_none_on_empty_or_all_tabu_witness :
    ((∀ idx ∈ [2], (candAt exModel2 (fun _ _ => 0) true 1 idx).all
        (fun op => tabuContains exTabuArc op) = true) ∧
      (∀ idx ∈ [2], (candAt exModel2 (fun _ _ => 0) false 1 idx).all
        (fun op => tabuContains exTabuArc op) = true)) ∧
    (arcFindMax exModel2 (fun _ _ => 0) 1 [] = none ∧
      arcFindMaxTabu exModel2 (fun _ _ => 0) 1 [] exTabuArc = none ∧
      arcFindMaxTabu exModel2 (fun _ _ => 0) 1 [2] exTabuArc = none) :=
  ⟨⟨by decide, by decide⟩,
    arcFindMax_none_on_empty_or_all_tabu exModel2 (fun _ _ => 0) 1 [2] exTabuArc
      (by decide) (by decide)⟩

/-- Removing an edge never enlarges any parent set. -/
theorem parents_remove_subset (m : Model) (a b : String) (v : ℕ) :
    (m.remove_edge a b).parents v ⊆ m.parents v := by
  intro x hx
  simp only [Model.parents, Model.remove_edge, Finset.mem_filter,
    Finset.mem_range] at hx ⊢
  obtain ⟨hxn, hxe⟩ := hx
  refine ⟨hxn, ?_⟩
  by_cases hc : x = m.index a ∧ v = m.index b
  · rw [if_pos hc] at hxe
    cases hxe
  · rw [if_neg hc] at hxe
    exact hxe

/-- Adding the edge a to b at most inserts the index of a into a parent
set. -/
theorem parents_add_subset (m : Model) (a b : String) (v : ℕ) :
    (m.add_edge a b).parents v ⊆ insert (m.index a) (m.parents v) := by
  intro x hx
  simp only [Model.parents, Model.add_edge, Finset.mem_filter,
    Finset.mem_range] at hx
  obtain ⟨hxn, hxe⟩ := hx
  by_cases hc : x = m.index a ∧ v = m.index b
  · exact Finset.mem_insert.mpr (Or.inl hc.1)
  · rw [if_neg hc] at hxe
    exact Finset.mem_insert.mpr (Or.inr (by
      simp only [Model.parents, Finset.mem_filter, Finset.mem_range]
      exact ⟨hxn, hxe⟩))

/-- Adding the edge a to b leaves the parent set of every node other than
the target of the addition unchanged. -/
theorem parents_add_other (m : Model) (a b : String) (v : ℕ)
    (hv : v ≠ m.index b) :
    (m.add_edge a b).parents v = m.parents v := by
  simp only [Model.parents, Model.add_edge]
  apply Finset.filter_congr
  intro x _
  rw [if_neg (fun hc => hv hc.2)]

/-- Removing an edge never increases a parent count. -/
theorem num_parents_remove_le (m : Model) (a b : String) (v : ℕ) :
    (m.remove_edge a b).num_parents v ≤ m.num_parents v :=
  Finset.card_le_card (parents_remove_subset m a b v)

/-- Adding an edge increases a parent count by at most one. -/
theorem num_parents_add_le (m : Model) (a b : String) (v : ℕ) :
    (m.add_edge a b).num_parents v ≤ m.num_parents v + 1 :=
  le_trans (Finset.card_le_card (parents_add_subset m a b v))
    (Finset.card_insert_le _ _)

/-- Adding an edge leaves every other parent count unchanged. -/
theorem num_parents_add_other (m : Model) (a b : String) (v : ℕ)
    (hv : v ≠ m.index b) :
    (m.add_edge a b).num_parents v = m.num_parents v := by
  unfold Model.num_parents
  rw [parents_add_other m a b v hv]

/-- The uncapped instantiation of the candidate scan body applies no
in-degree restriction: it coincides with the scan body that has no cap at
all, whatever max_indegree holds. -/
theorem candAt_false_eq_noCap (m : Model) (δ : Matq) (max_indegree idx : ℕ) :
    candAt m δ false max_indegree idx = candAtNoCap m δ idx := by
  simp [candAt, candAtNoCap]

/-- Exhaustive characterization of a successful capped candidate scan at
one index: the three operator shapes with their guard conditions. -/
theorem candAt_true_cases (m : Model) (δ : Matq) (max_indegree idx : ℕ)
    (op : Op) (h : candAt m δ true max_indegree idx = some op) :
    (m.edge (idx % m.num_nodes) (idx / m.num_nodes) = true ∧
      op = Op.removeArc (m.name (idx % m.num_nodes)) (m.name (idx / m.num_nodes))
        (δ (idx % m.num_nodes) (idx / m.num_nodes))) ∨
    (m.edge (idx % m.num_nodes) (idx / m.num_nodes) = false ∧
      m.edge (idx / m.num_nodes) (idx % m.num_nodes) = true ∧
      m.can_flip_edge (idx / m.num_nodes) (idx % m.num_nodes) = true ∧
      m.num_parents (idx / m.num_nodes) < max_indegree ∧
      op = Op.flipArc (m.name (idx / m.num_nodes)) (m.name (idx % m.num_nodes))
        (δ (idx / m.num_nodes) (idx % m.num_nodes))) ∨
    (m.edge (idx % m.num_nodes) (idx / m.num_nodes) = false ∧
      m.can_add_edge (idx % m.num_nodes) (idx / m.num_nodes) = true ∧
      m.num_parents (idx / m.num_nodes) < max_indegree ∧
      op = Op.addArc (m.name (idx % m.num_nodes)) (m.name (idx / m.num_nodes))
        (δ (idx % m.num_nodes) (idx / m.num_nodes))) := by
  unfold candAt at h
  simp only [Model.has_edge] at h
  by_cases h1 : m.edge (idx % m.num_nodes) (idx / m.num_nodes) = true
  · left
    rw [if_pos h1] at h
    exact ⟨h1, (Option.some.injEq _ _).mp h.symm |>.symm ▸ rfl⟩
  · rw [if_neg h1] at h
    by_cases h2 : (m.edge (idx / m.num_nodes) (idx % m.num_nodes) &&
        m.can_flip_edge (idx / m.num_nodes) (idx % m.num_nodes)) = true
    · rw [if_pos h2] at h
      by_cases h3 : max_indegree ≤ m.num_parents (idx / m.num_nodes)
      · simp [h3] at h
      · have hcond : ¬ ((true && decide (max_indegree ≤
            m.num_parents (idx / m.num_nodes))) = true) := by simp [h3]
        rw [if_neg hcond] at h
        right; left
        rw [Bool.and_eq_true] at h2
        injection h with hop
        exact ⟨by simpa using h1, h2.1, h2.2, by omega, hop.symm⟩
    · rw [if_neg h2] at h
      by_cases h4 : m.can_add_edge (idx % m.num_nodes) (idx / m.num_nodes) = true
      · rw [if_pos h4] at h
        by_cases h3 : max_indegree ≤ m.num_parents (idx / m.num_nodes)
        · simp [h3] at h
        · have hcond : ¬ ((true && decide (max_indegree ≤
              m.num_parents (idx / m.num_nodes))) = true) := by simp [h3]
          rw [if_neg hcond] at h
          right; right
          injection h with hop
          exact ⟨by simpa using h1, h4, by omega, hop.symm⟩
      · rw [if_neg h4] at h
        cases h

/-- Safety of one successful capped candidate: an AddArc or a FlipArc is
produced only under the in-degree guard on the destination (the node that
gains a parent), and applying the produced operator leaves every parent
count at or below the larger of its previous value and max_indegree. -/
theorem candAt_true_safety (m : Model) (δ : Matq) (max_indegree idx : ℕ)
    (op : Op)
    (hIdx : ∀ i, i < m.num_nodes → m.index (m.name i) = i)
    (hidx : idx < m.num_nodes * m.num_nodes)
    (h : candAt m δ true max_indegree idx = some op) :
    (∀ s t d, op = Op.addArc s t d →
      t = m.name (idx / m.num_nodes) ∧
      m.num_parents (idx / m.num_nodes) < max_indegree) ∧
    (∀ t s d, op = Op.flipArc t s d →
      t = m.name (idx / m.num_nodes) ∧
      m.num_parents (idx / m.num_nodes) < max_indegree) ∧
    (∀ v, (op.apply m).num_parents v ≤ max (m.num_parents v) max_indegree) := by
  have hn : 0 < m.num_nodes := by
    rcases Nat.eq_zero_or_pos m.num_nodes with h0 | hn
    · rw [h0] at hidx
      omega
    · exact hn
  have hdest : idx / m.num_nodes < m.num_nodes :=
    (Nat.div_lt_iff_lt_mul hn).mpr hidx
  have hsource : idx % m.num_nodes < m.num_nodes := Nat.mod_lt idx hn
  rcases candAt_true_cases m δ max_indegree idx op h with
    ⟨he, hop⟩ | ⟨he1, he2, hcf, hguard, hop⟩ | ⟨he1, hca, hguard, hop⟩
  · subst hop
    refine ⟨fun s t d habs => by simp at habs, fun t s d habs => by simp at habs, ?_⟩
    intro v
    exact le_trans (num_parents_remove_le m _ _ v) (le_max_left _ _)
  · subst hop
    refine ⟨fun s t d habs => by simp at habs, ?_, ?_⟩
    · intro t s d habs
      injection habs with h1 h2 h3
      exact ⟨h1.symm, hguard⟩
    · intro v
      show ((m.remove_edge (m.name (idx / m.num_nodes))
          (m.name (idx % m.num_nodes))).add_edge (m.name (idx % m.num_nodes))
          (m.name (idx / m.num_nodes))).num_parents v ≤ _
      have hmid : (m.remove_edge (m.name (idx / m.num_nodes))
          (m.name (idx % m.num_nodes))).index (m.name (idx / m.num_nodes)) =
          idx / m.num_nodes := hIdx _ hdest
      by_cases hv : v = idx / m.num_nodes
      · subst hv
        have h2 := num_parents_add_le
          (m.remove_edge (m.name (idx / m.num_nodes)) (m.name (idx % m.num_nodes)))
          (m.name (idx % m.num_nodes)) (m.name (idx / m.num_nodes)) (idx / m.num_nodes)
        have h3 := num_parents_remove_le m (m.name (idx / m.num_nodes))
          (m.name (idx % m.num_nodes)) (idx / m.num_nodes)
        have : ((m.remove_edge (m.name (idx / m.num_nodes))
            (m.name (idx % m.num_nodes))).add_edge (m.name (idx % m.num_nodes))
            (m.name (idx / m.num_nodes))).num_parents (idx / m.num_nodes) ≤
            max_indegree := by omega
        exact le_trans this (le_max_right _ _)
      · have heq := num_parents_add_other
          (m.remove_edge (m.name (idx / m.num_nodes)) (m.name (idx % m.num_nodes)))
          (m.name (idx % m.num_nodes)) (m.name (idx / m.num_nodes)) v
          (by rw [hmid]; exact hv)
        rw [heq]
        exact le_trans (num_parents_remove_le m _ _ v) (le_max_left _ _)
  · subst hop
    refine ⟨?_, fun t s d habs => by simp at habs, ?_⟩
    · intro s t d habs
      injection habs with h1 h2 h3
      exact ⟨h2.symm, hguard⟩
    · intro v
      show (m.add_edge (m.name (idx % m.num_nodes))
          (m.name (idx / m.num_nodes))).num_parents v ≤ _
      by_cases hv : v = idx / m.num_nodes
      · subst hv
        have h2 := num_parents_add_le m (m.name (idx % m.num_nodes))
          (m.name (idx / m.num_nodes)) (idx / m.num_nodes)
        have : (m.add_edge (m.name (idx % m.num_nodes))
            (m.name (idx / m.num_nodes))).num_parents (idx / m.num_nodes) ≤
            max_indegree := by omega
        exact le_trans this (le_max_right _ _)
      · have heq := num_parents_add_other m (m.name (idx % m.num_nodes))
          (m.name (idx / m.num_nodes)) v (by rw [hIdx _ hdest]; exact hv)
        rw [heq]
        exact le_max_left _ _

/-- Claim C5: with a positive max_indegree, every operator returned by
ArcOperatorSet::find_max comes from a candidate index of sorted_idx whose
scan passed the in-degree guard: a returned AddArc(s, t) or FlipArc(t, s)
has its parent-gaining node t with num_parents(t) < max_indegree, and
applying the returned operator leaves every parent count at or below the
larger of its previous value and max_indegree; with max_indegree = 0 the
dispatch selects the scan body with no in-degree restriction at all. -/
theorem arcFindMax_respects_max_indegree (m : Model) (δ : Matq)
    (max_indegree : ℕ) (sorted_idx : List ℕ)
    (hIdx : ∀ i, i < m.num_nodes → m.index (m.name i) = i)
    (hRange : ∀ idx ∈ sorted_idx, idx < m.num_nodes * m.num_nodes) :
    (∀ op, 0 < max_indegree →
      arcFindMax m δ max_indegree sorted_idx = some op →
      ∃ idx ∈ sorted_idx,
        candAt m δ true max_indegree idx = some op ∧
        (∀ s t d, op = Op.addArc s t d →
          t = m.name (idx / m.num_nodes) ∧
          m.num_parents (idx / m.num_nodes) < max_indegree) ∧
        (∀ t s d, op = Op.flipArc t s d →
          t = m.name (idx / m.num_nodes) ∧
          m.num_parents (idx / m.num_nodes) < max_indegree) ∧
        (∀ v, (op.apply m).num_parents v ≤ max (m.num_parents v) max_indegree)) ∧
    (max_indegree = 0 →
      arcFindMax m δ max_indegree sorted_idx =
        (sortDesc (deltaLin m.num_nodes δ) sorted_idx).findSome?
          (candAtNoCap m δ)) := by
  constructor
  · intro op hpos hfound
    unfold arcFindMax at hfound
    rw [if_pos hpos] at hfound
    unfold arcFindMaxIndegree at hfound
    obtain ⟨idx, hidxmem, hcand⟩ :=
      exists_mem_of_findSome_eq_some _ _ _ hfound
    have hmem : idx ∈ sorted_idx := (mem_sortDesc _ _ _).mp hidxmem
    obtain ⟨ha, hf, happ⟩ := candAt_true_safety m δ max_indegree idx op hIdx
      (hRange idx hmem) hcand
    exact ⟨idx, hmem, hcand, ha, hf, happ⟩
  · intro h0
    subst h0
    unfold arcFindMax arcFindMaxIndegree
    rw [if_neg (by omega)]
    have hfun : candAt m δ false 0 = candAtNoCap m δ :=
      funext (fun idx => candAt_false_eq_noCap m δ 0 idx)
    rw [hfun]

/-- Claim C5 witness: on the two-node model with arc 0 to 1 and
max_indegree 1, find_max over the single valid candidate cell (1, 0)
(linear index 1) returns the flip of the arc, and the safety facts hold at
that candidate. -/
theorem arcFindMax_respects_max_indegree_witness :
    (∀ i, i < exModel2.num_nodes → exModel2.index (exModel2.name i) = i) ∧
    (∀ idx ∈ [1], idx < exModel2.num_nodes * exModel2.num_nodes) ∧
    (0 : ℕ) < 1 ∧
    arcFindMax exModel2 (fun _ _ => 0) 1 [1] =
      some (Op.flipArc "A" "B" 0) ∧
    (∃ idx ∈ [1],
      candAt exModel2 (fun _ _ => 0) true 1 idx = some (Op.flipArc "A" "B" 0) ∧
      (∀ s t d, Op.flipArc "A" "B" 0 = Op.addArc s t d →
        t = exModel2.name (idx / exModel2.num_nodes) ∧
        exModel2.num_parents (idx / exModel2.num_nodes) < 1) ∧
      (∀ t s d, Op.flipArc "A" "B" 0 = Op.flipArc t s d →
        t = exModel2.name (idx / exModel2.num_nodes) ∧
        exModel2.num_parents (idx / exModel2.num_nodes) < 1) ∧
      (∀ v, ((Op.flipArc "A" "B" 0).apply exModel2).num_parents v ≤
        max (exModel2.num_parents v) 1)) :=
  ⟨by decide, by decide, by decide, by decide,
    (arcFindMax_respects_max_indegree exModel2 (fun _ _ => 0) 1 [1]
      (by decide) (by decide)).1 (Op.flipArc "A" "B" 0) (by decide) (by decide)⟩

/-- The pool scan over the sets equals the same scan over the list of
operators the sets actually produced, in pool order. -/
theorem pool_foldl_filterMap (m : Model) (sets : List (Model → Option Op)) :
    ∀ acc : ℤ × Option Op,
    sets.foldl
      (fun (acc : ℤ × Option Op) f =>
        match f m with
        | some newOp => poolScanStep acc newOp
        | none => acc) acc =
    (sets.filterMap (fun f => f m)).foldl poolScanStep acc := by
  induction sets with
  | nil => intro acc; rfl
  | cons f fs ih =>
      intro acc
      rw [List.foldl_cons, List.filterMap_cons]
      cases hf : f m with
      | none => simp only; rw [ih]
      | some op => simp only [List.foldl_cons]; rw [ih]

/-- With every produced candidate strictly above the lowest sentinel, the
imperative scan with a (delta, operator) accumulator computes exactly the
declarative best-by-spec selection. -/
theorem pool_scan_matches_best (cands : List Op) :
    ∀ (d : ℤ) (bo : Option Op),
    (∀ op ∈ cands, lowest < op.delta) →
    ((bo = none ∧ d = lowest) ∨ (∃ b, bo = some b ∧ d = b.delta)) →
    (cands.foldl poolScanStep (d, bo)).2 = cands.foldl bestStep bo := by
  induction cands with
  | nil => intro d bo _ _; rfl
  | cons c rest ih =>
      intro d bo hall hinv
      rw [List.foldl_cons, List.foldl_cons]
      have hrest : ∀ op ∈ rest, lowest < op.delta :=
        fun op hop => hall op (List.mem_cons_of_mem c hop)
      rcases hinv with ⟨hbo, hd⟩ | ⟨b, hbo, hd⟩
      · subst hbo
        subst hd
        have hc : lowest < c.delta := hall c (List.mem_cons_self c rest)
        have hstep : poolScanStep (lowest, none) c = (c.delta, some c) := by
          simp [poolScanStep, hc]
        rw [hstep]
        have hbstep : bestStep none c = some c := rfl
        rw [hbstep]
        exact ih c.delta (some c) hrest (Or.inr ⟨c, rfl, rfl⟩)
      · subst hbo
        subst hd
        by_cases hlt : b.delta < c.delta
        · have hstep : poolScanStep (b.delta, some b) c = (c.delta, some c) := by
            simp [poolScanStep, hlt]
          have hbstep : bestStep (some b) c = some c := by
            simp [bestStep, hlt]
          rw [hstep, hbstep]
          exact ih c.delta (some c) hrest (Or.inr ⟨c, rfl, rfl⟩)
        · have hstep : poolScanStep (b.delta, some b) c = (b.delta, some b) := by
            simp [poolScanStep, hlt]
          have hbstep : bestStep (some b) c = some b := by
            simp [bestStep, hlt]
          rw [hstep, hbstep]
          exact ih b.delta (some b) hrest (Or.inr ⟨b, rfl, rfl⟩)

/-- Once the best-by-spec accumulator holds a candidate it never becomes
empty again. -/
theorem bestBySpec_acc_some (l : List Op) :
    ∀ b : Op, l.foldl bestStep (some b) ≠ none := by
  induction l with
  | nil => intro b h; cases h
  | cons c rest ih =>
      intro b
      rw [List.foldl_cons]
      by_cases hlt : b.delta < c.delta
      · have : bestStep (some b) c = some c := by simp [bestStep, hlt]
        rw [this]
        exact ih c
      · have : bestStep (some b) c = some b := by simp [bestStep, hlt]
        rw [this]
        exact ih b

/-- The best-by-spec selection is empty exactly on the empty candidate
list. -/
theorem bestBySpec_eq_none_iff (cands : List Op) :
    bestBySpec cands = none ↔ cands = [] := by
  cases cands with
  | nil => simp [bestBySpec]
  | cons c rest =>
      constructor
      · intro h
        unfold bestBySpec at h
        rw [List.foldl_cons] at h
        exact absurd h (bestBySpec_acc_some rest c)
      · intro h
        cases h

/-- The best-by-spec selection returns a member of the candidate list whose
delta is maximal among accumulator and list. -/
theorem bestBySpec_max (l : List Op) :
    ∀ (acc : Option Op) (op : Op), l.foldl bestStep acc = some op →
      (acc = some op ∨ op ∈ l) ∧
      (∀ b ∈ l, b.delta ≤ op.delta) ∧
      (∀ b, acc = some b → b.delta ≤ op.delta) := by
  induction l with
  | nil =>
      intro acc op h
      refine ⟨Or.inl h, fun b hb => absurd hb (List.not_mem_nil b), ?_⟩
      intro b hb
      rw [hb] at h
      cases h
      exact le_refl _
  | cons c rest ih =>
      intro acc op h
      rw [List.foldl_cons] at h
      cases acc with
      | none =>
          have hstep : bestStep none c = some c := rfl
          rw [hstep] at h
          obtain ⟨hmem, hrest, hacc⟩ := ih (some c) op h
          have hcd : c.delta ≤ op.delta := hacc c rfl
          refine ⟨?_, ?_, ?_⟩
          · rcases hmem with hm | hm
            · cases hm
              exact Or.inr (List.mem_cons_self c rest)
            · exact Or.inr (List.mem_cons_of_mem c hm)
          · intro b hb
            rcases List.mem_cons.mp hb with hb | hb
            · rw [hb]; exact hcd
            · exact hrest b hb
          · intro b hb
            cases hb
      | some b0 =>
          by_cases hlt : b0.delta < c.delta
          · have hstep : bestStep (some b0) c = some c := by simp [bestStep, hlt]
            rw [hstep] at h
            obtain ⟨hmem, hrest, hacc⟩ := ih (some c) op h
            have hcd : c.delta ≤ op.delta := hacc c rfl
            refine ⟨?_, ?_, ?_⟩
            · rcases hmem with hm | hm
              · cases hm
                exact Or.inr (List.mem_cons_self c rest)
              · exact Or.inr (List.mem_cons_of_mem c hm)
            · intro b hb
              rcases List.mem_cons.mp hb with hb | hb
              · rw [hb]; exact hcd
              · exact hrest b hb
            · intro b hb
              injection hb with hb
              subst hb
              exact le_trans (le_of_lt hlt) hcd
          · have hstep : bestStep (some b0) c = some b0 := by simp [bestStep, hlt]
            rw [hstep] at h
            obtain ⟨hmem, hrest, hacc⟩ := ih (some b0) op h
            have hbd : b0.delta ≤ op.delta := hacc b0 rfl
            refine ⟨?_, ?_, ?_⟩
            · rcases hmem with hm | hm
              · exact Or.inl hm
              · exact Or.inr (List.mem_cons_of_mem c hm)
            · intro b hb
              rcases List.mem_cons.mp hb with hb | hb
              · rw [hb]
                exact le_trans (le_of_not_lt hlt) hbd
              · exact hrest b hb
            · intro b hb
              injection hb with hb
              subst hb
              exact hbd

/-- Claim C4: provided every operator a set returns carries a delta above
the lowest sentinel (the spec reads the sentinel as negative infinity),
OperatorPool::find_max equals the declarative selection (largest delta,
earliest set winning ties) over the operators the sets returned in pool
order; it returns none exactly when every set returned none; every returned
operator is one of the returned candidates and its delta is maximal among
them; and the tabu overload on an empty tabu set delegates to the no-tabu
overload identically. -/
theorem poolFindMax_returns_best (m : Model) (sets : List (Model → Option Op))
    (hgt : ∀ f ∈ sets, ∀ op, f m = some op → lowest < op.delta) :
    (poolFindMax m sets = bestBySpec (sets.filterMap (fun f => f m))) ∧
    (poolFindMax m sets = none ↔ ∀ f ∈ sets, f m = none) ∧
    (∀ op, poolFindMax m sets = some op →
      op ∈ sets.filterMap (fun f => f m) ∧
      ∀ b ∈ sets.filterMap (fun f => f m), b.delta ≤ op.delta) ∧
    (∀ tabuSets : List ((Model → Option Op) × (Model → List Op → Option Op)),
      poolFindMaxTabu m tabuSets ([] : List Op) =
        poolFindMax m (tabuSets.map Prod.fst)) := by
  have hall : ∀ op ∈ sets.filterMap (fun f => f m), lowest < op.delta := by
    intro op hop
    obtain ⟨f, hf, hfm⟩ := List.mem_filterMap.mp hop
    exact hgt f hf op hfm
  have heq : poolFindMax m sets = bestBySpec (sets.filterMap (fun f => f m)) := by
    unfold poolFindMax bestBySpec
    rw [pool_foldl_filterMap]
    exact pool_scan_matches_best _ lowest none hall (Or.inl ⟨rfl, rfl⟩)
  refine ⟨heq, ?_, ?_, ?_⟩
  · rw [heq, bestBySpec_eq_none_iff, List.filterMap_eq_nil_iff]
  · intro op hop
    rw [heq] at hop
    obtain ⟨hmem, hmax, _⟩ := bestBySpec_max _ none op hop
    refine ⟨?_, hmax⟩
    rcases hmem with hm | hm
    · cases hm
    · exact hm
  · intro tabuSets
    rfl

/-- Two constant operator sets used to exercise the pool scan. -/
def exPoolSets : List (Model → Option Op) :=
  [fun _ => some (Op.addArc "A" "B" 1), fun _ => some (Op.addArc "B" "A" 2)]

/-- Claim C4 witness: on the two constant sets the pool scan equals the
declarative selection and picks the second candidate, whose delta 2 is the
strict maximum. -/
theorem poolFindMax_returns_best_witness :
    poolFindMax exModel2 exPoolSets =
      bestBySpec (exPoolSets.filterMap (fun f => f exModel2)) ∧
    poolFindMax exModel2 exPoolSets = some (Op.addArc "B" "A" 2) :=
  ⟨(poolFindMax_returns_best exModel2 exPoolSets (by
      intro f hf op hop
      simp only [exPoolSets, List.mem_cons, List.not_mem_nil, or_false] at hf
      rcases hf with rfl | rfl
      · simp only [Option.some.injEq] at hop
        subst hop
        decide
      · simp only [Option.some.injEq] at hop
        subst hop
        decide)).1,
    by decide⟩
